import Mathlib

/-!
Shallow embedding of the two source files of neuronsimulator/pythontutorial:

* `build_rst.sh` — a POSIX shell script that, for each notebook file
  matching the glob `*.ipynb`, invokes `jupyter nbconvert --to html`,
  writes a stub `name.rst` file, and appends an entry to `index.rst`
  (which is first truncated to a fresh header).  The script runs under
  `set -e`, so the first failing command aborts the run with that
  command status.

* `ball-and-stick-4.ipynb` — contains the `ring.py` snippet (class
  `Ring` with `set_gids` and `_connect_cells`) and the `test_ring2.py`
  snippet (per-process spike dictionaries gathered to rank 0 via
  `pc.py_alltoall` and merged with successive `dict.update` calls).

File contents are modelled as plain strings; the output directory and
Python dictionaries are modelled as insertion-ordered association lists
with replace-in-place update, matching both shell redirection targets
and Python dict semantics.
-/

namespace PyTut

/-- Insertion-ordered association list update: if the key is present its
value is replaced in place, otherwise the pair is appended at the end.
This matches both "write file in a directory" and Python dict
assignment. -/
def assocSet {κ α : Type} [DecidableEq κ] : List (κ × α) → κ → α → List (κ × α)
  | [], k, v => [(k, v)]
  | (k0, v0) :: rest, k, v =>
    if k0 = k then (k, v) :: rest else (k0, v0) :: assocSet rest k v

/-- Lookup in an association list (first occurrence wins). -/
def assocGet {κ α : Type} [DecidableEq κ] : List (κ × α) → κ → Option α
  | [], _ => none
  | (k0, v0) :: rest, k => if k0 = k then some v0 else assocGet rest k

/-! ## Model of build_rst.sh -/

/-- The output directory: file name to file contents, in creation order. -/
abbrev FileSys := List (String × String)

/-- `echo "..." > name` : truncating write. -/
def setFile (fs : FileSys) (name contents : String) : FileSys :=
  assocSet fs name contents

/-- Contents of a file, if present. -/
def getFile (fs : FileSys) (name : String) : Option String :=
  assocGet fs name

/-- `echo "..." >> name` : appending write (creates the file if absent). -/
def appendToFile (fs : FileSys) (name contents : String) : FileSys :=
  setFile fs name (((getFile fs name).getD "") ++ contents)

/-- Characters of the base name: the characters before the last dot,
or `none` when there is no dot.  Helper for `stripExt`. -/
def dropLastExt : List Char → Option (List Char)
  | [] => none
  | c :: rest =>
    match dropLastExt rest with
    | some l => some (c :: l)
    | none => if c = '.' then some [] else none

/-- The shell parameter expansion `name=$\x7bfilename%.*\x7d`: remove the
shortest suffix matching `.*`, i.e. everything from the last dot on;
a string without a dot is returned unchanged. -/
def stripExt (s : String) : String :=
  match dropLastExt s.data with
  | some l => String.mk l
  | none => s

/-- The fixed text written to `index.rst` before the loop
(`echo` appends a final newline to the quoted text). -/
def indexHeader : String :=
  "\nTutorials\n=========\n\n.. toctree::\n   :maxdepth: 2\n\n"

/-- The contents of the stub `name.rst` written for one notebook. -/
def stubContents (name : String) : String :=
  name ++ "\n----------------\n\n.. raw:: html\n   :file: " ++ name ++ ".html\n\n"

/-- The line appended to `index.rst` for one notebook. -/
def indexEntry (name : String) : String :=
  "   " ++ name ++ "\n"

/-- POSIX unquoted glob expansion for `for filename in *.ipynb`: when the
pattern matches nothing it stays as the literal string `*.ipynb`, and the
loop body runs once on that literal. -/
def globIpynb (found : List String) : List String :=
  if found = [] then ["*.ipynb"] else found

/-- Result of a run of the script: the output directory state and the
process exit status (0 = success). -/
structure RunResult where
  fs : FileSys
  exitStatus : Nat
deriving DecidableEq

/-- One successful loop iteration after `jupyter nbconvert` returned 0:
write the stub `name.rst`, then append the entry to `index.rst`. -/
def processNotebook (fs : FileSys) (filename : String) : FileSys :=
  let name := stripExt filename
  appendToFile (setFile fs (name ++ ".rst") (stubContents name)) "index.rst" (indexEntry name)

/-- The `for filename in *.ipynb` loop under `set -e`: each iteration
first runs the converter (modelled by its exit status `convert f`); a
non-zero status aborts the whole script with that status, otherwise the
stub is written and the index entry appended. -/
def runLoop (convert : String → Nat) : List String → FileSys → RunResult
  | [], fs => ⟨fs, 0⟩
  | f :: rest, fs =>
    if convert f = 0 then runLoop convert rest (processNotebook fs f)
    else ⟨fs, convert f⟩

/-- The whole script: truncate `index.rst` to the fresh header, then run
the loop over the glob expansion.  `found` is the (sorted) list of file
names matching `*.ipynb` in the working directory; `convert f` is the
exit status of `jupyter nbconvert --to html f`. -/
def buildRst (convert : String → Nat) (found : List String) (fs : FileSys) : RunResult :=
  runLoop convert (globIpynb found) (setFile fs "index.rst" indexHeader)

/-- The full `index.rst` contents after successfully processing the given
notebook list. -/
def indexContent (notebooks : List String) : String :=
  indexHeader ++ String.join (notebooks.map (fun f => indexEntry (stripExt f)))

/-- The directory entry (name, contents) of the stub written for one
notebook. -/
def stubPair (f : String) : String × String :=
  (stripExt f ++ ".rst", stubContents (stripExt f))

/-- Split a character stream into lines at newline characters;
`acc` holds the (reversed) characters of the current line. -/
def splitLinesAux : List Char → List Char → List String
  | [], acc => [String.mk acc.reverse]
  | c :: cs, acc =>
    if c = '\n' then String.mk acc.reverse :: splitLinesAux cs []
    else splitLinesAux cs (c :: acc)

/-- The lines of a string (text after the final newline forms a last,
possibly empty, line). -/
def linesOf (s : String) : List String := splitLinesAux s.data []

/-! ## Model of ring.py and test_ring2.py -/

/-- Python built-in `range(start, stop, step)` for a positive step, per
its documented semantics: the arithmetic sequence
`start, start + step, ...` of length `ceil((stop - start) / step)`. -/
def pyRange (start stop step : Nat) : List Nat :=
  List.range' start ((stop - start + step - 1) / step) step

/-- `Ring.set_gids`: `self.gidlist = list(range(pc.id(), self._N, pc.nhost()))`.
`nhost` is the number of processes, `id` the rank of this process, `N`
the cell count. -/
def set_gids (nhost id N : Nat) : List Nat :=
  pyRange id N nhost

/-- One `NetCon` made by `Ring._connect_cells`, with the gid of the
source cell, the gid of the target cell, and the assigned weight and
delay (`nc.weight[0] = self._syn_w`, `nc.delay = self._syn_delay`).
Weight and delay values are carried at an abstract type. -/
structure Connection (α : Type) where
  source : Nat
  target : Nat
  weight : α
  delay : α
deriving DecidableEq

/-- `source_gid = (target._gid - 1 + self._N) % self._N`, computed in
Python integer arithmetic (the `+ self._N` keeps the dividend
non-negative, so `%` agrees with mathematical mod). -/
def ringSource (N gid : Nat) : Nat :=
  (((gid : Int) - 1 + (N : Int)) % (N : Int)).toNat

/-- `Ring._connect_cells` on one process: one connection per owned cell
(the cells on this host are exactly those with gid in the gidlist). -/
def connect_cells {α : Type} (nhost id N : Nat) (syn_w syn_delay : α) : List (Connection α) :=
  (set_gids nhost id N).map (fun gid => ⟨ringSource N gid, gid, syn_w, syn_delay⟩)

/-- All connections created across the `nhost` processes. -/
def allConnections {α : Type} (nhost N : Nat) (syn_w syn_delay : α) : List (Connection α) :=
  (List.range nhost).flatMap (fun id => connect_cells nhost id N syn_w syn_delay)

/-- `local_data = \x7bcell._gid: list(cell.spike_times) for cell in ring.cells\x7d`
on process `id`: the cells on a host are created in gidlist order, and
`recorded id gid` is the spike-time list the simulator recorded on host
`id` for the cell with that gid (external data, carried abstractly). -/
def local_data {α : Type} (recorded : Nat → Nat → α) (nhost id N : Nat) : List (Nat × α) :=
  (set_gids nhost id N).map (fun gid => (gid, recorded id gid))

/-- Python `data.update(process_data)`: insert every pair of `src` into
`d` in order, replacing values of existing keys in place. -/
def dictUpdate {κ α : Type} [DecidableEq κ] (d src : List (κ × α)) : List (κ × α) :=
  src.foldl (fun acc kv => assocSet acc kv.1 kv.2) d

/-- The merge on rank 0 in `test_ring2.py`: `pc.py_alltoall` hands rank 0
the list of every rank local dictionary in rank order (modelled from the
documented contract of that external collective), then
`data = \x7b\x7d` followed by `data.update(process_data)` for each. -/
def gatherMerge {α : Type} (recorded : Nat → Nat → α) (nhost N : Nat) : List (Nat × α) :=
  ((List.range nhost).map (fun id => local_data recorded nhost id N)).foldl dictUpdate []

/-! ## Sanity examples (concrete evaluations of the embedding) -/

example : stripExt "foo.ipynb" = "foo" := by decide
example : stripExt "a.b.ipynb" = "a.b" := by decide
example : stripExt "noext" = "noext" := by decide
example : globIpynb [] = ["*.ipynb"] := by decide
example : set_gids 2 0 5 = [0, 2, 4] := by decide
example : set_gids 2 1 5 = [1, 3] := by decide
example : set_gids 3 2 2 = [] := by decide
example : set_gids 1 0 3 = [0, 1, 2] := by decide
example : ringSource 5 0 = 4 := by decide
example : ringSource 5 3 = 2 := by decide
example : linesOf "a\nb\n" = ["a", "b", ""] := by decide

/-! ## Association-store lemmas -/

theorem assocGet_assocSet_self {κ α : Type} [DecidableEq κ] (d : List (κ × α)) (k : κ) (v : α) :
    assocGet (assocSet d k v) k = some v := by
  induction d with
  | nil => simp [assocSet, assocGet]
  | cons kv rest ih =>
    obtain ⟨k0, v0⟩ := kv
    by_cases h : k0 = k <;> simp [assocSet, assocGet, h, ih]

theorem assocGet_assocSet_ne {κ α : Type} [DecidableEq κ] (d : List (κ × α)) {k m : κ} (v : α)
    (h : k ≠ m) : assocGet (assocSet d k v) m = assocGet d m := by
  induction d with
  | nil => simp [assocSet, assocGet, h]
  | cons kv rest ih =>
    obtain ⟨k0, v0⟩ := kv
    by_cases h0 : k0 = k
    · subst h0
      simp [assocSet, assocGet, h]
    · simp [assocSet, assocGet, h0, ih]

theorem assocSet_assocSet_self {κ α : Type} [DecidableEq κ] (d : List (κ × α)) (k : κ) (v v' : α) :
    assocSet (assocSet d k v) k v' = assocSet d k v' := by
  induction d with
  | nil => simp [assocSet]
  | cons kv rest ih =>
    obtain ⟨k0, v0⟩ := kv
    by_cases h : k0 = k <;> simp [assocSet, h, ih]

theorem assocSet_same {κ α : Type} [DecidableEq κ] {d : List (κ × α)} {k : κ} {v : α}
    (h : assocGet d k = some v) : assocSet d k v = d := by
  induction d with
  | nil => simp [assocGet] at h
  | cons kv rest ih =>
    obtain ⟨k0, v0⟩ := kv
    by_cases h0 : k0 = k
    · subst h0
      simp [assocGet] at h
      simp [assocSet, h]
    · simp [assocGet, h0] at h
      simp [assocSet, h0, ih h]

theorem assocSet_not_mem {κ α : Type} [DecidableEq κ] {d : List (κ × α)} {k : κ} (v : α)
    (h : k ∉ d.map Prod.fst) : assocSet d k v = d ++ [(k, v)] := by
  induction d with
  | nil => simp [assocSet]
  | cons kv rest ih =>
    obtain ⟨k0, v0⟩ := kv
    simp only [List.map_cons, List.mem_cons] at h
    push_neg at h
    have hne : ¬k0 = k := fun hc => h.1 hc.symm
    simp [assocSet, hne, ih h.2]

theorem assocGet_append {κ α : Type} [DecidableEq κ] (a b : List (κ × α)) (k : κ) :
    assocGet (a ++ b) k = ((assocGet a k).rec (assocGet b k) (fun v => some v)) := by
  induction a with
  | nil => simp [assocGet]
  | cons kv rest ih =>
    obtain ⟨k0, v0⟩ := kv
    by_cases h : k0 = k <;> simp [assocGet, h, ih]

theorem assocGet_eq_none_of_not_mem {κ α : Type} [DecidableEq κ] {d : List (κ × α)} {k : κ}
    (h : k ∉ d.map Prod.fst) : assocGet d k = none := by
  induction d with
  | nil => simp [assocGet]
  | cons kv rest ih =>
    obtain ⟨k0, v0⟩ := kv
    simp only [List.map_cons, List.mem_cons] at h
    push_neg at h
    have hne : ¬k0 = k := fun hc => h.1 hc.symm
    simp [assocGet, hne, ih h.2]

theorem assocGet_of_mem_nodup {κ α : Type} [DecidableEq κ] {d : List (κ × α)} {k : κ} {v : α}
    (hnd : (d.map Prod.fst).Nodup) (hm : (k, v) ∈ d) : assocGet d k = some v := by
  induction d with
  | nil => simp at hm
  | cons kv rest ih =>
    obtain ⟨k0, v0⟩ := kv
    simp only [List.map_cons, List.nodup_cons] at hnd
    rcases List.mem_cons.1 hm with h | h
    · obtain ⟨hk, hv⟩ := Prod.mk.injEq .. ▸ h.symm
      simp [assocGet, hk.symm, hv]
    · have hk0 : k0 ≠ k := by
        intro hc
        subst hc
        exact hnd.1 (List.mem_map.2 ⟨(k0, v), h, rfl⟩)
      simp [assocGet, hk0, ih hnd.2 h]

/-! ## String helpers -/

theorem strJoin_cons (s : String) (l : List String) :
    String.join (s :: l) = s ++ String.join l := by
  apply String.ext
  simp [String.join_eq, String.data_append]

theorem strJoin_nil : String.join [] = "" := rfl

theorem str_append_right_cancel {a b c : String} (h : a ++ c = b ++ c) : a = b := by
  have hd := congrArg String.data h
  simp only [String.data_append] at hd
  exact String.ext (List.append_cancel_right hd)

theorem rst_name_ne {name : String} (h : name ≠ "index") : name ++ ".rst" ≠ "index.rst" := by
  intro hc
  exact h (str_append_right_cancel (c := ".rst") (by rw [hc]; rfl))

theorem rst_name_inj {a b : String} (h : a ++ ".rst" = b ++ ".rst") : a = b :=
  str_append_right_cancel h

/-! ## Run lemmas for build_rst.sh -/

theorem runLoop_all_ok {convert : String → Nat} {l : List String} (fs : FileSys)
    (h : ∀ f ∈ l, convert f = 0) :
    runLoop convert l fs = ⟨List.foldl processNotebook fs l, 0⟩ := by
  induction l generalizing fs with
  | nil => rfl
  | cons f rest ih =>
    have hf : convert f = 0 := h f (List.mem_cons_self f rest)
    simp only [runLoop, hf, if_pos rfl, List.foldl_cons]
    exact ih _ (fun g hg => h g (List.mem_cons_of_mem f hg))

theorem runLoop_fail_first {convert : String → Nat} {pre : List String} {f : String}
    (post : List String) (fs : FileSys)
    (hpre : ∀ g ∈ pre, convert g = 0) (hf : convert f ≠ 0) :
    runLoop convert (pre ++ f :: post) fs = ⟨List.foldl processNotebook fs pre, convert f⟩ := by
  induction pre generalizing fs with
  | nil => simp [runLoop, hf]
  | cons g rest ih =>
    have hg : convert g = 0 := hpre g (List.mem_cons_self g rest)
    simp only [List.cons_append, runLoop, hg, if_pos rfl, List.foldl_cons]
    exact ih _ (fun x hx => hpre x (List.mem_cons_of_mem g hx))

theorem getFile_foldl_index {l : List String} {fs : FileSys} {t : String}
    (hidx : ∀ f ∈ l, stripExt f ≠ "index")
    (h : getFile fs "index.rst" = some t) :
    getFile (List.foldl processNotebook fs l) "index.rst"
      = some (t ++ String.join (l.map (fun f => indexEntry (stripExt f)))) := by
  induction l generalizing fs t with
  | nil => simpa [strJoin_nil, String.append_empty] using h
  | cons f rest ih =>
    have hne : stripExt f ++ ".rst" ≠ "index.rst" :=
      rst_name_ne (hidx f (List.mem_cons_self f rest))
    have h1 : getFile (setFile fs (stripExt f ++ ".rst") (stubContents (stripExt f)))
        "index.rst" = some t := by
      simpa [getFile, setFile] using
        (assocGet_assocSet_ne fs (stubContents (stripExt f)) hne).trans h
    have h2 : getFile (processNotebook fs f) "index.rst"
        = some (t ++ indexEntry (stripExt f)) := by
      show getFile (appendToFile (setFile fs (stripExt f ++ ".rst") (stubContents (stripExt f)))
        "index.rst" (indexEntry (stripExt f))) "index.rst" = _
      rw [appendToFile, h1]
      exact assocGet_assocSet_self (setFile fs (stripExt f ++ ".rst")
        (stubContents (stripExt f))) "index.rst" ((some t).getD "" ++ indexEntry (stripExt f))
    have := ih (fun g hg => hidx g (List.mem_cons_of_mem f hg)) h2
    rw [List.foldl_cons, this, List.map_cons, strJoin_cons, String.append_assoc]

theorem getFile_processNotebook_stub_self {fs : FileSys} {g : String}
    (hg : stripExt g ≠ "index") :
    getFile (processNotebook fs g) (stripExt g ++ ".rst")
      = some (stubContents (stripExt g)) := by
  have hne : "index.rst" ≠ stripExt g ++ ".rst" := fun hc => rst_name_ne hg hc.symm
  simp only [processNotebook, appendToFile, getFile, setFile]
  rw [assocGet_assocSet_ne _ _ hne]
  exact assocGet_assocSet_self _ _ _

theorem getFile_foldl_stub_preserved {l : List String} {fs : FileSys} {name : String}
    (hn : name ≠ "index")
    (h : getFile fs (name ++ ".rst") = some (stubContents name)) :
    getFile (List.foldl processNotebook fs l) (name ++ ".rst")
      = some (stubContents name) := by
  induction l generalizing fs with
  | nil => exact h
  | cons g rest ih =>
    rw [List.foldl_cons]
    apply ih
    by_cases hsame : stripExt g = name
    · rw [← hsame]
      exact getFile_processNotebook_stub_self (hsame ▸ hn)
    · have hne1 : stripExt g ++ ".rst" ≠ name ++ ".rst" := fun hc => hsame (rst_name_inj hc)
      have hne2 : "index.rst" ≠ name ++ ".rst" := fun hc => rst_name_ne hn hc.symm
      simp only [processNotebook, appendToFile, getFile, setFile]
      rw [assocGet_assocSet_ne _ _ hne2, assocGet_assocSet_ne _ _ hne1]
      exact h

theorem getFile_foldl_stub {l : List String} {fs : FileSys} {f : String}
    (hidx : ∀ g ∈ l, stripExt g ≠ "index") (hmem : f ∈ l) :
    getFile (List.foldl processNotebook fs l) (stripExt f ++ ".rst")
      = some (stubContents (stripExt f)) := by
  induction l generalizing fs with
  | nil => simp at hmem
  | cons g rest ih =>
    rw [List.foldl_cons]
    rcases List.mem_cons.1 hmem with h | h
    · subst h
      exact getFile_foldl_stub_preserved (hidx f (List.mem_cons_self f rest))
        (getFile_processNotebook_stub_self (hidx f (List.mem_cons_self f rest)))
    · exact ih (fun x hx => hidx x (List.mem_cons_of_mem g hx)) h

theorem globIpynb_ne_nil {l : List String} (h : l ≠ []) : globIpynb l = l := by
  simp [globIpynb, h]

theorem getFile_setFile_self (fs : FileSys) (n c : String) :
    getFile (setFile fs n c) n = some c :=
  assocGet_assocSet_self fs n c

/-- Every run either succeeds on every converter call or has a first
failing one. -/
theorem firstFailureSplit (convert : String → Nat) (l : List String) :
    (∀ f ∈ l, convert f = 0) ∨
      ∃ pre f post, l = pre ++ f :: post ∧ (∀ g ∈ pre, convert g = 0) ∧ convert f ≠ 0 := by
  induction l with
  | nil => exact Or.inl (by simp)
  | cons f rest ih =>
    by_cases hf : convert f = 0
    · rcases ih with h | ⟨pre, g, post, hsplit, hpre, hg⟩
      · exact Or.inl (by
          intro x hx
          rcases List.mem_cons.1 hx with h1 | h1
          · exact h1 ▸ hf
          · exact h x h1)
      · refine Or.inr ⟨f :: pre, g, post, by rw [hsplit, List.cons_append], ?_, hg⟩
        intro x hx
        rcases List.mem_cons.1 hx with h1 | h1
        · exact h1 ▸ hf
        · exact hpre x h1
    · exact Or.inr ⟨[], f, rest, rfl, by simp, hf⟩

/-- Exact directory contents produced by the loop when started right
after the header write on an otherwise untouched directory: the index
accumulates one entry per notebook and each notebook leaves its stub,
in processing order. -/
theorem foldl_clean (l : List String) :
    ∀ (t : String) (done : List (String × String)),
    (∀ f ∈ l, stripExt f ≠ "index") →
    (∀ f ∈ l, (stripExt f ++ ".rst") ∉ done.map Prod.fst) →
    (l.map (fun f => stripExt f ++ ".rst")).Nodup →
    List.foldl processNotebook (("index.rst", t) :: done) l
      = ("index.rst", t ++ String.join (l.map (fun f => indexEntry (stripExt f))))
        :: (done ++ l.map stubPair) := by
  induction l with
  | nil =>
    intro t done _ _ _
    simp [strJoin_nil, String.append_empty]
  | cons f rest ih =>
    intro t done hidx hfresh hnd
    have hf_idx : stripExt f ≠ "index" := hidx f (List.mem_cons_self f rest)
    have hne : ¬("index.rst" = stripExt f ++ ".rst") :=
      fun hc => rst_name_ne hf_idx hc.symm
    have hstep : processNotebook (("index.rst", t) :: done) f
        = ("index.rst", t ++ indexEntry (stripExt f))
          :: (done ++ [stubPair f]) := by
      have hset : setFile (("index.rst", t) :: done) (stripExt f ++ ".rst")
          (stubContents (stripExt f))
          = ("index.rst", t) :: (done ++ [stubPair f]) := by
        show assocSet (("index.rst", t) :: done) (stripExt f ++ ".rst")
          (stubContents (stripExt f)) = _
        rw [assocSet]
        rw [if_neg hne, assocSet_not_mem _ (hfresh f (List.mem_cons_self f rest))]
        rfl
      show appendToFile (setFile (("index.rst", t) :: done) (stripExt f ++ ".rst")
        (stubContents (stripExt f))) "index.rst" (indexEntry (stripExt f)) = _
      rw [hset, appendToFile]
      have hget : getFile (("index.rst", t) :: (done ++ [stubPair f])) "index.rst"
          = some t := by
        show assocGet _ _ = _
        rw [assocGet, if_pos rfl]
      rw [hget]
      show assocSet _ _ _ = _
      rw [assocSet, if_pos rfl]
      rfl
    rw [List.foldl_cons, hstep]
    have hnd_pair : (∀ x ∈ rest, ¬stripExt x ++ ".rst" = stripExt f ++ ".rst") ∧
        (rest.map (fun f => stripExt f ++ ".rst")).Nodup := by simpa using hnd
    have hfresh' : ∀ g ∈ rest, (stripExt g ++ ".rst") ∉ (done ++ [stubPair f]).map Prod.fst := by
      intro g hg
      rw [List.map_append, List.mem_append]
      push_neg
      refine ⟨hfresh g (List.mem_cons_of_mem f hg), ?_⟩
      simp only [stubPair, List.map_cons, List.map_nil, List.mem_singleton]
      exact hnd_pair.1 g hg
    have hnd' : (rest.map (fun f => stripExt f ++ ".rst")).Nodup := hnd_pair.2
    rw [ih (t ++ indexEntry (stripExt f)) (done ++ [stubPair f])
      (fun g hg => hidx g (List.mem_cons_of_mem f hg)) hfresh' hnd']
    rw [List.map_cons, strJoin_cons, String.append_assoc, List.append_assoc]
    rfl

/-- Replaying the loop on a directory that already holds the final state
of a previous identical run (with the index truncated back to `t`)
reproduces that state exactly. -/
theorem foldl_replay (l : List String) :
    ∀ (F : FileSys) (t : String),
    (∀ f ∈ l, stripExt f ≠ "index") →
    (∀ f ∈ l, getFile F (stripExt f ++ ".rst") = some (stubContents (stripExt f))) →
    getFile F "index.rst" = some (t ++ String.join (l.map (fun f => indexEntry (stripExt f)))) →
    List.foldl processNotebook (setFile F "index.rst" t) l = F := by
  induction l with
  | nil =>
    intro F t _ _ hindex
    rw [List.foldl_nil]
    apply assocSet_same
    simpa [strJoin_nil, String.append_empty, getFile] using hindex
  | cons f rest ih =>
    intro F t hidx hstubs hindex
    have hf_idx : stripExt f ≠ "index" := hidx f (List.mem_cons_self f rest)
    have hne : stripExt f ++ ".rst" ≠ "index.rst" := rst_name_ne hf_idx
    have hstub_f : getFile F (stripExt f ++ ".rst") = some (stubContents (stripExt f)) :=
      hstubs f (List.mem_cons_self f rest)
    have hstep : processNotebook (setFile F "index.rst" t) f
        = setFile F "index.rst" (t ++ indexEntry (stripExt f)) := by
      have hset : setFile (setFile F "index.rst" t) (stripExt f ++ ".rst")
          (stubContents (stripExt f)) = setFile F "index.rst" t := by
        apply assocSet_same
        show assocGet (assocSet F "index.rst" t) (stripExt f ++ ".rst") = _
        rw [assocGet_assocSet_ne F t (fun hc => hne hc.symm)]
        exact hstub_f
      show appendToFile (setFile (setFile F "index.rst" t) (stripExt f ++ ".rst")
        (stubContents (stripExt f))) "index.rst" (indexEntry (stripExt f)) = _
      rw [hset, appendToFile]
      have hget : getFile (setFile F "index.rst" t) "index.rst" = some t :=
        assocGet_assocSet_self F "index.rst" t
      rw [hget]
      show assocSet (assocSet F "index.rst" t) "index.rst" _ = _
      rw [assocSet_assocSet_self]
      rfl
    rw [List.foldl_cons, hstep]
    apply ih F (t ++ indexEntry (stripExt f))
      (fun g hg => hidx g (List.mem_cons_of_mem f hg))
      (fun g hg => hstubs g (List.mem_cons_of_mem f hg))
    rw [hindex, List.map_cons, strJoin_cons, String.append_assoc]

/-! ## stripExt lemmas -/

theorem dropLastExt_none_of_no_dot {l : List Char} (h : '.' ∉ l) : dropLastExt l = none := by
  induction l with
  | nil => rfl
  | cons c rest ih =>
    have hc : c ≠ '.' := fun hc => h (hc ▸ List.mem_cons_self c rest)
    have hr : '.' ∉ rest := fun hr => h (List.mem_cons_of_mem c hr)
    simp [dropLastExt, ih hr, hc]

theorem dropLastExt_append_dot {m : List Char} (l : List Char) (h : '.' ∉ m) :
    dropLastExt (l ++ '.' :: m) = some l := by
  induction l with
  | nil => simp [dropLastExt, dropLastExt_none_of_no_dot h]
  | cons c rest ih => simp [dropLastExt, ih]

theorem stripExt_append_ipynb (b : String) : stripExt (b ++ ".ipynb") = b := by
  have hdata : (b ++ ".ipynb").data = b.data ++ '.' :: ['i', 'p', 'y', 'n', 'b'] := by
    rw [String.data_append]
  have hnodot : '.' ∉ ['i', 'p', 'y', 'n', 'b'] := by decide
  rw [stripExt, hdata, dropLastExt_append_dot b.data hnodot]

theorem dropLastExt_subset {l m : List Char} (h : dropLastExt l = some m) :
    ∀ c ∈ m, c ∈ l := by
  induction l generalizing m with
  | nil => simp [dropLastExt] at h
  | cons c rest ih =>
    rw [dropLastExt] at h
    rcases hrec : dropLastExt rest with _ | l'
    · rw [hrec] at h
      by_cases hc : c = '.'
      · rw [if_pos hc] at h
        injection h with h1
        subst h1
        simp
      · simp [hc] at h
    · rw [hrec] at h
      simp only [Option.some.injEq] at h
      intro x hx
      rcases List.mem_cons.1 (h ▸ hx) with h1 | h1
      · exact h1 ▸ List.mem_cons_self c rest
      · exact List.mem_cons_of_mem c (ih hrec x h1)

theorem stripExt_subset {s : String} {c : Char} (h : c ∈ (stripExt s).data) : c ∈ s.data := by
  rw [stripExt] at h
  rcases hrec : dropLastExt s.data with _ | l
  · rw [hrec] at h
    exact h
  · rw [hrec] at h
    exact dropLastExt_subset hrec c h

/-! ## Line-splitting lemmas -/

theorem splitLinesAux_line {l : List Char} (rest acc : List Char) (h : '\n' ∉ l) :
    splitLinesAux (l ++ '\n' :: rest) acc
      = String.mk (acc.reverse ++ l) :: splitLinesAux rest [] := by
  induction l generalizing acc with
  | nil => simp [splitLinesAux]
  | cons c cs ih =>
    have hc : c ≠ '\n' := fun hc => h (hc ▸ List.mem_cons_self c cs)
    have hcs : '\n' ∉ cs := fun hcs => h (List.mem_cons_of_mem c hcs)
    rw [List.cons_append, splitLinesAux, if_neg hc, ih _ hcs]
    simp

theorem linesOf_entries (nb : List String) (h : ∀ f ∈ nb, '\n' ∉ (stripExt f).data) :
    splitLinesAux (String.join (nb.map (fun f => indexEntry (stripExt f)))).data []
      = nb.map (fun f => "   " ++ stripExt f) ++ [""] := by
  induction nb with
  | nil => rfl
  | cons f rest ih =>
    rw [List.map_cons, strJoin_cons, String.data_append]
    have hdata : (indexEntry (stripExt f)).data
        = ("   " ++ stripExt f).data ++ '\n' :: [] := by
      rw [indexEntry, String.data_append]
    rw [hdata, List.append_assoc, List.singleton_append]
    have hnl : '\n' ∉ ("   " ++ stripExt f).data := by
      rw [String.data_append]
      intro hc
      rcases List.mem_append.1 hc with h1 | h1
      · simp at h1
      · exact h f (List.mem_cons_self f rest) h1
    rw [splitLinesAux_line _ _ hnl]
    rw [ih (fun g hg => h g (List.mem_cons_of_mem f hg))]
    rfl

theorem splitLinesAux_header (r : List Char) :
    splitLinesAux (indexHeader.data ++ r) []
      = "" :: "Tutorials" :: "=========" :: "" :: ".. toctree::"
        :: "   :maxdepth: 2" :: "" :: splitLinesAux r [] := rfl

theorem linesOf_indexContent (nb : List String) (h : ∀ f ∈ nb, '\n' ∉ (stripExt f).data) :
    linesOf (indexContent nb)
      = ["", "Tutorials", "=========", "", ".. toctree::", "   :maxdepth: 2", ""]
        ++ nb.map (fun f => "   " ++ stripExt f) ++ [""] := by
  rw [linesOf, indexContent, String.data_append, splitLinesAux_header, linesOf_entries nb h]
  rfl

theorem entry_ne_toctree (s : String) : ¬("   " ++ s = ".. toctree::") := by
  intro hc
  have hd := congrArg String.data hc
  rw [String.data_append] at hd
  have h3 : "   ".data = [' ', ' ', ' '] := rfl
  have h4 : ".. toctree::".data
      = ['.', '.', ' ', 't', 'o', 'c', 't', 'r', 'e', 'e', ':', ':'] := rfl
  rw [h3, h4] at hd
  injection hd with h1 _
  exact absurd h1 (by decide)

theorem toctree_count (nb : List String) (h : ∀ f ∈ nb, '\n' ∉ (stripExt f).data) :
    (linesOf (indexContent nb)).countP (fun s => s == ".. toctree::") = 1 := by
  rw [linesOf_indexContent nb h, List.countP_append, List.countP_append]
  have h1 : (["", "Tutorials", "=========", "", ".. toctree::",
      "   :maxdepth: 2", ""] : List String).countP (fun s => s == ".. toctree::") = 1 := by
    decide
  have h2 : (nb.map (fun f => "   " ++ stripExt f)).countP (fun s => s == ".. toctree::") = 0 := by
    rw [List.countP_eq_zero]
    intro a ha
    rcases List.mem_map.1 ha with ⟨f, _, rfl⟩
    simpa using entry_ne_toctree (stripExt f)
  have h3 : ([""] : List String).countP (fun s => s == ".. toctree::") = 0 := by decide
  rw [h1, h2, h3]

/-! ## pyRange and set_gids lemmas -/

theorem lt_ceil_iff {a step k : Nat} (h : 0 < step) :
    k < (a + step - 1) / step ↔ k * step < a := by
  rw [Nat.lt_iff_add_one_le, Nat.le_div_iff_mul_le h]
  have hm : (k + 1) * step = k * step + step := by ring
  rw [hm]
  omega

theorem mem_pyRange {start stop step g : Nat} (h : 0 < step) :
    g ∈ pyRange start stop step ↔ ∃ k, g = start + k * step ∧ g < stop := by
  rw [pyRange, List.mem_range']
  constructor
  · rintro ⟨i, hi, rfl⟩
    have h2 := (lt_ceil_iff h).1 hi
    have h3 : step * i = i * step := Nat.mul_comm step i
    exact ⟨i, by rw [Nat.mul_comm], by omega⟩
  · rintro ⟨k, rfl, hlt⟩
    refine ⟨k, (lt_ceil_iff h).2 (by omega), by rw [Nat.mul_comm]⟩

theorem mem_set_gids {nhost id N g : Nat} (hn : 0 < nhost) (hid : id < nhost) :
    g ∈ set_gids nhost id N ↔ g < N ∧ g % nhost = id := by
  rw [set_gids, mem_pyRange hn]
  constructor
  · rintro ⟨k, rfl, hlt⟩
    refine ⟨hlt, ?_⟩
    rw [Nat.add_mul_mod_self_right]
    exact Nat.mod_eq_of_lt hid
  · rintro ⟨hlt, hmod⟩
    refine ⟨g / nhost, ?_, hlt⟩
    have h1 : nhost * (g / nhost) + g % nhost = g := Nat.div_add_mod g nhost
    rw [hmod] at h1
    have hcomm : nhost * (g / nhost) = g / nhost * nhost := Nat.mul_comm nhost (g / nhost)
    omega

theorem nodup_set_gids (nhost id N : Nat) (hn : 0 < nhost) :
    (set_gids nhost id N).Nodup :=
  List.nodup_range' _ _ _ hn

theorem set_gids_eq_filter {nhost id N : Nat} (hn : 0 < nhost) (hid : id < nhost) :
    set_gids nhost id N = (List.range N).filter (fun g => g % nhost == id) := by
  apply List.eq_of_perm_of_sorted (r := (· ≤ ·))
  · apply List.perm_of_nodup_nodup_toFinset_eq (nodup_set_gids nhost id N hn)
      ((List.nodup_range N).filter _)
    ext g
    rw [List.mem_toFinset, List.mem_toFinset, mem_set_gids hn hid, List.mem_filter,
      List.mem_range]
    simp
  · exact (List.pairwise_lt_range' _ _ _ hn).imp Nat.le_of_lt
  · exact (List.Pairwise.sublist (List.filter_sublist (List.range N))
      (List.pairwise_lt_range N)).imp Nat.le_of_lt

theorem count_set_gids {nhost id N g : Nat} (hn : 0 < nhost) (hid : id < nhost) :
    List.count g (set_gids nhost id N) = if g < N ∧ g % nhost = id then 1 else 0 := by
  by_cases h : g ∈ set_gids nhost id N
  · rw [List.count_eq_one_of_mem (nodup_set_gids nhost id N hn) h,
      if_pos ((mem_set_gids hn hid).1 h)]
  · rw [List.count_eq_zero.2 h, if_neg (fun hc => h ((mem_set_gids hn hid).2 hc))]

theorem sum_map_single {n j : Nat} (c : Nat) (f : Nat → Nat) (hj : j < n)
    (hf : ∀ i, i < n → i ≠ j → f i = 0) (hfj : f j = c) :
    ((List.range n).map f).sum = c := by
  induction n with
  | zero => omega
  | succ m ih =>
    rw [List.range_succ, List.map_append, List.sum_append]
    by_cases hm : j = m
    · subst hm
      have hzero : ((List.range j).map f).sum = 0 := by
        apply List.sum_eq_zero
        intro x hx
        rcases List.mem_map.1 hx with ⟨i, hi, rfl⟩
        exact hf i (by exact Nat.lt_succ_of_lt (List.mem_range.1 hi)) (Nat.ne_of_lt (List.mem_range.1 hi))
      simp [hzero, hfj]
    · have hj' : j < m := by omega
      rw [ih hj' (fun i hi hij => hf i (by omega) hij)]
      simp [hf m (Nat.lt_succ_self m) (fun hc => hm hc.symm)]

/-! ## Ring-connection lemmas -/

theorem ringSource_eq {N : Nat} (g : Nat) (hN : 0 < N) :
    ringSource N g = (g + N - 1) % N := by
  rw [ringSource]
  have h1 : ((g : Int) - 1 + (N : Int)) = ((g + N - 1 : Nat) : Int) := by omega
  rw [h1, ← Int.natCast_mod]
  exact Int.toNat_natCast _

theorem succ_mod_source {N n : Nat} (h : n < N) : ((n + 1) % N + N - 1) % N = n := by
  by_cases hlt : n + 1 < N
  · rw [Nat.mod_eq_of_lt hlt]
    have h2 : n + 1 + N - 1 = n + N := by omega
    rw [h2, Nat.add_mod_right, Nat.mod_eq_of_lt h]
  · have hNe : n + 1 = N := by omega
    rw [hNe, Nat.mod_self]
    have h3 : 0 + N - 1 = n := by omega
    rw [h3, Nat.mod_eq_of_lt h]

/-! ## Dictionary-merge lemmas -/

theorem map_fst_pair {α : Type} (v : Nat → α) (l : List Nat) :
    (l.map (fun g => (g, v g))).map Prod.fst = l := by
  induction l with
  | nil => rfl
  | cons g rest ih => simp only [List.map_cons, ih]

theorem local_data_keys {α : Type} (recorded : Nat → Nat → α) (nhost id N : Nat) :
    (local_data recorded nhost id N).map Prod.fst = set_gids nhost id N :=
  map_fst_pair (recorded id) (set_gids nhost id N)

theorem dictUpdate_append {κ α : Type} [DecidableEq κ] {src : List (κ × α)} :
    ∀ {d : List (κ × α)},
    (∀ k ∈ src.map Prod.fst, k ∉ d.map Prod.fst) →
    (src.map Prod.fst).Nodup →
    dictUpdate d src = d ++ src := by
  induction src with
  | nil =>
    intro d _ _
    simp [dictUpdate]
  | cons kv rest ih =>
    intro d hdisj hnd
    obtain ⟨k, v⟩ := kv
    have hk : k ∉ d.map Prod.fst := hdisj k (by simp)
    have hstep : dictUpdate d ((k, v) :: rest) = dictUpdate (assocSet d k v) rest := rfl
    rw [hstep, assocSet_not_mem v hk]
    have hnd' : (rest.map Prod.fst).Nodup ∧ k ∉ rest.map Prod.fst := by
      rw [List.map_cons, List.nodup_cons] at hnd
      exact ⟨hnd.2, hnd.1⟩
    rw [ih ?_ hnd'.1]
    · rw [List.append_assoc, List.singleton_append]
    · intro x hx
      rw [List.map_append, List.mem_append]
      push_neg
      refine ⟨hdisj x (List.mem_cons_of_mem _ hx), ?_⟩
      simp only [List.map_cons, List.map_nil, List.mem_singleton]
      intro hc
      exact hnd'.2 (hc ▸ hx)

theorem foldl_dictUpdate_flatten {κ α : Type} [DecidableEq κ] (ls : List (List (κ × α))) :
    ∀ d : List (κ × α),
    (((d :: ls).map (fun l => l.map Prod.fst)).flatten).Nodup →
    List.foldl dictUpdate d ls = d ++ ls.flatten := by
  induction ls with
  | nil =>
    intro d _
    simp
  | cons l rest ih =>
    intro d hnd
    rw [List.map_cons, List.map_cons, List.flatten_cons, List.flatten_cons] at hnd
    rw [← List.append_assoc] at hnd
    rw [List.nodup_append] at hnd
    obtain ⟨hdl, hrest, hdisj2⟩ := hnd
    rw [List.nodup_append] at hdl
    obtain ⟨hd, hl, hdisj⟩ := hdl
    rw [List.foldl_cons]
    have h1 : dictUpdate d l = d ++ l :=
      dictUpdate_append (fun k hk hkd => hdisj hkd hk) hl
    rw [h1, ih (d ++ l) ?_, List.flatten_cons, List.append_assoc]
    have hflat : (((d ++ l) :: rest).map (fun l => l.map Prod.fst)).flatten
        = ((d :: l :: rest).map (fun l => l.map Prod.fst)).flatten := by
      simp [List.map_append, List.append_assoc]
    rw [hflat]
    rw [List.map_cons, List.map_cons, List.flatten_cons, List.flatten_cons,
      ← List.append_assoc, List.nodup_append, List.nodup_append]
    exact ⟨⟨hd, hl, hdisj⟩, hrest, hdisj2⟩

/-! ## Gather-merge lemmas -/

theorem set_gids_lists_nodup {nhost N : Nat} (hn : 0 < nhost) :
    ((List.range nhost).map (fun id => set_gids nhost id N)).flatten.Nodup := by
  rw [List.nodup_flatten]
  constructor
  · intro l hl
    rcases List.mem_map.1 hl with ⟨id, _, rfl⟩
    exact nodup_set_gids nhost id N hn
  · rw [List.pairwise_map]
    apply List.Pairwise.imp_of_mem ?_ (List.pairwise_lt_range nhost)
    intro i j hi hj hlt g hgi hgj
    have h1 := ((mem_set_gids hn (List.mem_range.1 hi)).1 hgi).2
    have h2 := ((mem_set_gids hn (List.mem_range.1 hj)).1 hgj).2
    omega

theorem localDicts_keys {α : Type} (recorded : Nat → Nat → α) (nhost N : Nat) :
    (((List.range nhost).map (fun id => local_data recorded nhost id N)).map
      (fun l => l.map Prod.fst))
      = (List.range nhost).map (fun id => set_gids nhost id N) := by
  rw [List.map_map]
  apply List.map_congr_left
  intro id _
  exact local_data_keys recorded nhost id N

theorem gatherMerge_eq_flatten {α : Type} (recorded : Nat → Nat → α) {nhost N : Nat}
    (hn : 0 < nhost) :
    gatherMerge recorded nhost N
      = ((List.range nhost).map (fun id => local_data recorded nhost id N)).flatten := by
  rw [gatherMerge]
  rw [foldl_dictUpdate_flatten _ []]
  · rw [List.nil_append]
  · rw [List.map_cons, List.flatten_cons]
    simp only [List.map_nil, List.nil_append]
    rw [localDicts_keys]
    exact set_gids_lists_nodup hn

theorem gatherMerge_keys_nodup {α : Type} (recorded : Nat → Nat → α) {nhost N : Nat}
    (hn : 0 < nhost) :
    ((gatherMerge recorded nhost N).map Prod.fst).Nodup := by
  rw [gatherMerge_eq_flatten recorded hn, List.map_flatten, localDicts_keys]
  exact set_gids_lists_nodup hn

theorem gatherMerge_mem_keys {α : Type} (recorded : Nat → Nat → α) {nhost N : Nat}
    (hn : 0 < nhost) (g : Nat) :
    g ∈ (gatherMerge recorded nhost N).map Prod.fst ↔ g < N := by
  rw [gatherMerge_eq_flatten recorded hn, List.map_flatten, localDicts_keys,
    List.mem_flatten]
  constructor
  · rintro ⟨l, hl, hg⟩
    rcases List.mem_map.1 hl with ⟨id, hid, rfl⟩
    exact ((mem_set_gids hn (List.mem_range.1 hid)).1 hg).1
  · intro hg
    refine ⟨set_gids nhost (g % nhost) N, List.mem_map.2
      ⟨g % nhost, List.mem_range.2 (Nat.mod_lt g hn), rfl⟩, ?_⟩
    exact (mem_set_gids hn (Nat.mod_lt g hn)).2 ⟨hg, rfl⟩

theorem gatherMerge_get {α : Type} (recorded : Nat → Nat → α) {nhost N : Nat}
    (hn : 0 < nhost) {g : Nat} (hg : g < N) :
    assocGet (gatherMerge recorded nhost N) g = some (recorded (g % nhost) g) := by
  apply assocGet_of_mem_nodup (gatherMerge_keys_nodup recorded hn)
  rw [gatherMerge_eq_flatten recorded hn, List.mem_flatten]
  refine ⟨local_data recorded nhost (g % nhost) N, List.mem_map.2
    ⟨g % nhost, List.mem_range.2 (Nat.mod_lt g hn), rfl⟩, ?_⟩
  rw [local_data]
  exact List.mem_map.2 ⟨g, (mem_set_gids hn (Nat.mod_lt g hn)).2 ⟨hg, rfl⟩, rfl⟩

/-! ## Claim theorems -/

/-- C9: with zero notebook files the unquoted glob stays the literal
string `*.ipynb`, the loop body runs once invoking the converter on that
nonexistent file, and (the converter failing on it) the script exits
non-zero with that status, having written only the bare header to
index.rst and no stub files. -/
theorem c9_empty_glob_fails (convert : String → Nat) (fs0 : FileSys)
    (hfail : convert "*.ipynb" ≠ 0) :
    globIpynb [] = ["*.ipynb"]
    ∧ buildRst convert [] fs0 = ⟨setFile fs0 "index.rst" indexHeader, convert "*.ipynb"⟩
    ∧ (buildRst convert [] fs0).exitStatus ≠ 0 := by
  have hg : globIpynb [] = ["*.ipynb"] := rfl
  have h1 : buildRst convert [] fs0
      = ⟨setFile fs0 "index.rst" indexHeader, convert "*.ipynb"⟩ := by
    rw [buildRst, hg]
    rw [show (["*.ipynb"] : List String) = [] ++ "*.ipynb" :: [] from rfl]
    rw [runLoop_fail_first [] _ (by simp) hfail]
    rfl
  exact ⟨hg, h1, by rw [h1]; exact hfail⟩

/-- C9 witness: concrete instance with a converter that exits 1 on the
nonexistent literal glob pattern. -/
theorem c9_empty_glob_fails_witness :
    globIpynb [] = ["*.ipynb"]
    ∧ buildRst (fun _ => 1) [] [] = ⟨setFile [] "index.rst" indexHeader, 1⟩
    ∧ (buildRst (fun _ => 1) [] []).exitStatus ≠ 0 :=
  c9_empty_glob_fails (fun _ => 1) [] (by decide)

/-- C1 counterexample: at N = 0 (zero notebook files, converter failing
on the nonexistent literal `*.ipynb` as jupyter nbconvert does) the
script does not complete successfully, so the quantification of the
stub-count property over every N including N = 0 fails: there is no
successful run producing the index alone. -/
theorem c1_counterexample :
    ¬((buildRst (fun _ => 1) ([] : List String) []).exitStatus = 0
      ∧ (buildRst (fun _ => 1) ([] : List String) []).fs
          = [("index.rst", indexContent [])]) := by
  decide

/-- C1 (amended): for a directory with N ≥ 1 notebook files — distinct
names of the form base.ipynb, no base equal to index — on which every
converter call succeeds, the script exits 0 and its output directory
holds exactly one index file index.rst plus exactly N stub files, one
per notebook, named after the notebook base name with extension .rst, in
processing order; at N = 0 the run instead fails with only the header
written (see the counterexample). -/
theorem c1_stub_count (convert : String → Nat) (notebooks : List String)
    (hne : notebooks ≠ []) (hnd : notebooks.Nodup)
    (hform : ∀ f ∈ notebooks, ∃ b, f = b ++ ".ipynb")
    (hidx : ∀ f ∈ notebooks, stripExt f ≠ "index")
    (hok : ∀ f ∈ notebooks, convert f = 0) :
    buildRst convert notebooks []
      = ⟨("index.rst", indexContent notebooks) :: notebooks.map stubPair, 0⟩ := by
  rw [buildRst, globIpynb_ne_nil hne, runLoop_all_ok _ hok]
  have hndstub : (notebooks.map (fun f => stripExt f ++ ".rst")).Nodup := by
    apply List.Nodup.map_on ?_ hnd
    intro x hx y hy hxy
    obtain ⟨bx, rfl⟩ := hform x hx
    obtain ⟨by_, rfl⟩ := hform y hy
    have := rst_name_inj hxy
    rw [stripExt_append_ipynb, stripExt_append_ipynb] at this
    rw [this]
  have h := foldl_clean notebooks indexHeader [] hidx (by simp) hndstub
  rw [show setFile [] "index.rst" indexHeader = [("index.rst", indexHeader)] from rfl, h]
  rw [List.nil_append]
  rfl

/-- C1 witness: two notebooks produce the two stubs and the two-entry
index. -/
theorem c1_stub_count_witness :
    buildRst (fun _ => 0) ["a.ipynb", "b.ipynb"] []
      = ⟨("index.rst", indexContent ["a.ipynb", "b.ipynb"])
          :: ["a.ipynb", "b.ipynb"].map stubPair, 0⟩ :=
  c1_stub_count (fun _ => 0) ["a.ipynb", "b.ipynb"] (by decide) (by decide)
    (by
      intro f hf
      simp only [List.mem_cons, List.not_mem_nil, or_false] at hf
      rcases hf with rfl | rfl
      · exact ⟨"a", rfl⟩
      · exact ⟨"b", rfl⟩)
    (by decide) (by decide)

/-- C3: under set -e the first failing converter call aborts the script
immediately: no subsequent command runs, so the directory is exactly the
state left by the successfully processed prefix, and the script exit
status equals the failing command status, hence non-zero. -/
theorem c3_fail_fast (convert : String → Nat) (pre post : List String) (f : String)
    (fs0 : FileSys) (hpre : ∀ g ∈ pre, convert g = 0) (hf : convert f ≠ 0) :
    buildRst convert (pre ++ f :: post) fs0
      = ⟨List.foldl processNotebook (setFile fs0 "index.rst" indexHeader) pre, convert f⟩
    ∧ (buildRst convert (pre ++ f :: post) fs0).exitStatus ≠ 0 := by
  have h1 : buildRst convert (pre ++ f :: post) fs0
      = ⟨List.foldl processNotebook (setFile fs0 "index.rst" indexHeader) pre,
          convert f⟩ := by
    rw [buildRst, globIpynb_ne_nil (by simp), runLoop_fail_first post _ hpre hf]
  exact ⟨h1, by rw [h1]; exact hf⟩

/-- C3 witness: the converter fails with status 2 on the second of three
notebooks; only the first is processed and the script reports 2. -/
theorem c3_fail_fast_witness :
    buildRst (fun s => if s = "bad.ipynb" then 2 else 0)
        (["a.ipynb"] ++ "bad.ipynb" :: ["c.ipynb"]) []
      = ⟨List.foldl processNotebook (setFile [] "index.rst" indexHeader) ["a.ipynb"], 2⟩
    ∧ (buildRst (fun s => if s = "bad.ipynb" then 2 else 0)
        (["a.ipynb"] ++ "bad.ipynb" :: ["c.ipynb"]) []).exitStatus ≠ 0 :=
  c3_fail_fast (fun s => if s = "bad.ipynb" then 2 else 0) ["a.ipynb"] ["c.ipynb"]
    "bad.ipynb" [] (by decide) (by decide)

/-- C5: each iteration runs converter, stub write, index append in that
fixed order, so when the first converter failure happens at notebook f
the run ends holding stub files and index entries for exactly the
notebooks fully processed before f — in particular no entry or stub for
f or anything after it. -/
theorem c5_prefix_on_failure (convert : String → Nat) (pre post : List String) (f : String)
    (hpre : ∀ g ∈ pre, convert g = 0) (hf : convert f ≠ 0)
    (hnd : (pre.map (fun g => stripExt g ++ ".rst")).Nodup)
    (hidx : ∀ g ∈ pre, stripExt g ≠ "index") :
    buildRst convert (pre ++ f :: post) []
      = ⟨("index.rst", indexContent pre) :: pre.map stubPair, convert f⟩ := by
  rw [buildRst, globIpynb_ne_nil (by simp), runLoop_fail_first post _ hpre hf]
  have h := foldl_clean pre indexHeader [] hidx (by simp) hnd
  rw [show setFile [] "index.rst" indexHeader = [("index.rst", indexHeader)] from rfl, h]
  rw [List.nil_append]
  rfl

/-- C5 witness: failure on the second notebook leaves exactly the first
stub and a one-entry index, with exit status 3. -/
theorem c5_prefix_on_failure_witness :
    buildRst (fun s => if s = "a.ipynb" then 0 else 3)
        (["a.ipynb"] ++ "b.ipynb" :: []) []
      = ⟨("index.rst", indexContent ["a.ipynb"]) :: ["a.ipynb"].map stubPair, 3⟩ :=
  c5_prefix_on_failure (fun s => if s = "a.ipynb" then 0 else 3) ["a.ipynb"] []
    "b.ipynb" (by decide) (by decide) (by decide) (by decide)

/-- C4: for each notebook name.ipynb that is processed — it lies in a
leading block of notebooks whose conversions all succeed, whatever
happens afterwards — the script writes the stub file name.rst whose
contents are the base name as a section title (underlined), a blank
line, and a raw-include directive `.. raw:: html` with `:file:
name.html` referencing the HTML file the converter generated for that
notebook. -/
theorem c4_stub_contents (convert : String → Nat) (pre rest : List String) (fs0 : FileSys)
    (f : String) (hmem : f ∈ pre)
    (hpre : ∀ g ∈ pre, convert g = 0)
    (hidx : ∀ g ∈ pre ++ rest, stripExt g ≠ "index") :
    getFile (buildRst convert (pre ++ rest) fs0).fs (stripExt f ++ ".rst")
      = some (stripExt f ++ "\n----------------\n\n.. raw:: html\n   :file: "
          ++ stripExt f ++ ".html\n\n") := by
  have hne : pre ++ rest ≠ [] :=
    List.ne_nil_of_mem (List.mem_append.2 (Or.inl hmem))
  rw [buildRst, globIpynb_ne_nil hne]
  rcases firstFailureSplit convert (pre ++ rest) with hall |
    ⟨pre', f', post', hsplit, hpre', hf'⟩
  · rw [runLoop_all_ok _ hall]
    exact getFile_foldl_stub hidx (List.mem_append.2 (Or.inl hmem))
  · rw [hsplit, runLoop_fail_first post' _ hpre' hf']
    have hmem' : f ∈ pre' := by
      rcases List.append_eq_append_iff.1 hsplit with ⟨a, ha1, _⟩ | ⟨c, hc1, hc2⟩
      · rw [ha1]
        exact List.mem_append.2 (Or.inl hmem)
      · cases c with
        | nil =>
          rw [List.append_nil] at hc1
          exact hc1 ▸ hmem
        | cons x c2 =>
          exfalso
          have hx : x ∈ pre := by
            rw [hc1]
            exact List.mem_append.2 (Or.inr (List.mem_cons_self x c2))
          have hfx : f' = x := by
            rw [List.cons_append] at hc2
            exact (List.cons.injEq .. ▸ hc2).1
          exact hf' (hfx ▸ hpre x hx)
    have hidx' : ∀ g ∈ pre', stripExt g ≠ "index" := by
      intro g hg
      apply hidx g
      rw [hsplit]
      exact List.mem_append.2 (Or.inl hg)
    exact getFile_foldl_stub hidx' hmem'

/-- C4 witness: the stub written for a.ipynb is titled `a` and includes
a.html, even though the next notebook fails to convert. -/
theorem c4_stub_contents_witness :
    getFile (buildRst (fun s => if s = "a.ipynb" then 0 else 4)
        (["a.ipynb"] ++ ["bad.ipynb"]) []).fs (stripExt "a.ipynb" ++ ".rst")
      = some (stripExt "a.ipynb" ++ "\n----------------\n\n.. raw:: html\n   :file: "
          ++ stripExt "a.ipynb" ++ ".html\n\n") :=
  c4_stub_contents (fun s => if s = "a.ipynb" then 0 else 4) ["a.ipynb"] ["bad.ipynb"]
    [] "a.ipynb" (by decide) (by decide) (by decide)

/-- C2: after a successful run on N notebooks, index.rst is the fixed
header followed by exactly the N stub base names in processing order;
its lines are the header lines, then one indented entry per stub nested
under the table-of-contents directive, and exactly one line of the file
is the toctree directive. -/
theorem c2_index_lists_stubs (convert : String → Nat) (notebooks : List String)
    (fs0 : FileSys) (hne : notebooks ≠ [])
    (hidx : ∀ g ∈ notebooks, stripExt g ≠ "index")
    (hok : ∀ g ∈ notebooks, convert g = 0)
    (hnl : ∀ g ∈ notebooks, '\n' ∉ g.data) :
    getFile (buildRst convert notebooks fs0).fs "index.rst" = some (indexContent notebooks)
    ∧ linesOf (indexContent notebooks)
        = ["", "Tutorials", "=========", "", ".. toctree::", "   :maxdepth: 2", ""]
          ++ notebooks.map (fun f => "   " ++ stripExt f) ++ [""]
    ∧ (linesOf (indexContent notebooks)).countP (fun s => s == ".. toctree::") = 1 := by
  have hnl' : ∀ g ∈ notebooks, '\n' ∉ (stripExt g).data :=
    fun g hg hc => hnl g hg (stripExt_subset hc)
  refine ⟨?_, linesOf_indexContent notebooks hnl', toctree_count notebooks hnl'⟩
  rw [buildRst, globIpynb_ne_nil hne, runLoop_all_ok _ hok]
  exact getFile_foldl_index hidx (assocGet_assocSet_self fs0 "index.rst" indexHeader)

/-- C2 witness: a two-notebook run, checked on a directory that already
held a stale index. -/
theorem c2_index_lists_stubs_witness :
    getFile (buildRst (fun _ => 0) ["a.ipynb", "b.ipynb"]
        [("index.rst", "stale")]).fs "index.rst"
      = some (indexContent ["a.ipynb", "b.ipynb"])
    ∧ linesOf (indexContent ["a.ipynb", "b.ipynb"])
        = ["", "Tutorials", "=========", "", ".. toctree::", "   :maxdepth: 2", ""]
          ++ ["a.ipynb", "b.ipynb"].map (fun f => "   " ++ stripExt f) ++ [""]
    ∧ (linesOf (indexContent ["a.ipynb", "b.ipynb"])).countP
        (fun s => s == ".. toctree::") = 1 :=
  c2_index_lists_stubs (fun _ => 0) ["a.ipynb", "b.ipynb"] [("index.rst", "stale")]
    (by decide) (by decide) (by decide) (by decide)

/-- C8: every run truncates index.rst back to the fresh header before the
loop, so nothing from a previous run survives in it: the final index
contents are independent of the starting directory state, and running
the script a second time on the unchanged directory reproduces the first
run result (directory and exit status) exactly. -/
theorem c8_idempotent (convert : String → Nat) (notebooks : List String) (fs0 : FileSys)
    (hidx : ∀ f ∈ notebooks, stripExt f ≠ "index") :
    buildRst convert notebooks (buildRst convert notebooks fs0).fs
        = buildRst convert notebooks fs0
    ∧ getFile (buildRst convert notebooks fs0).fs "index.rst"
        = getFile (buildRst convert notebooks []).fs "index.rst" := by
  have hidx' : ∀ f ∈ globIpynb notebooks, stripExt f ≠ "index" := by
    by_cases h : notebooks = []
    · subst h
      intro f hf
      rw [show globIpynb [] = ["*.ipynb"] from rfl] at hf
      rw [List.mem_singleton] at hf
      subst hf
      decide
    · rw [globIpynb_ne_nil h]
      exact hidx
  rcases firstFailureSplit convert (globIpynb notebooks) with hall | hsplit
  · have hrun : ∀ s : FileSys, buildRst convert notebooks s
        = ⟨List.foldl processNotebook (setFile s "index.rst" indexHeader)
            (globIpynb notebooks), 0⟩ := by
      intro s
      rw [buildRst, runLoop_all_ok _ hall]
    constructor
    · rw [hrun fs0, hrun]
      have hstubs : ∀ f ∈ globIpynb notebooks,
          getFile (List.foldl processNotebook (setFile fs0 "index.rst" indexHeader)
            (globIpynb notebooks)) (stripExt f ++ ".rst")
            = some (stubContents (stripExt f)) :=
        fun f hf => getFile_foldl_stub hidx' hf
      have hindex := getFile_foldl_index (l := globIpynb notebooks) hidx'
        (assocGet_assocSet_self fs0 "index.rst" indexHeader)
      rw [foldl_replay _ _ indexHeader hidx' hstubs hindex]
    · rw [hrun fs0, hrun]
      show getFile (List.foldl processNotebook (setFile fs0 "index.rst" indexHeader)
          (globIpynb notebooks)) "index.rst"
        = getFile (List.foldl processNotebook (setFile [] "index.rst" indexHeader)
          (globIpynb notebooks)) "index.rst"
      rw [getFile_foldl_index hidx' (getFile_setFile_self fs0 "index.rst" indexHeader),
        getFile_foldl_index hidx' (getFile_setFile_self [] "index.rst" indexHeader)]
  · obtain ⟨pre, f, post, hsplit, hpre, hf⟩ := hsplit
    have hpre_idx : ∀ g ∈ pre, stripExt g ≠ "index" := by
      intro g hg
      exact hidx' g (hsplit ▸ List.mem_append.2 (Or.inl hg))
    have hrun : ∀ s : FileSys, buildRst convert notebooks s
        = ⟨List.foldl processNotebook (setFile s "index.rst" indexHeader) pre,
            convert f⟩ := by
      intro s
      rw [buildRst, hsplit, runLoop_fail_first post _ hpre hf]
    constructor
    · rw [hrun fs0, hrun]
      have hstubs : ∀ g ∈ pre,
          getFile (List.foldl processNotebook (setFile fs0 "index.rst" indexHeader) pre)
            (stripExt g ++ ".rst") = some (stubContents (stripExt g)) :=
        fun g hg => getFile_foldl_stub hpre_idx hg
      have hindex := getFile_foldl_index (l := pre) hpre_idx
        (assocGet_assocSet_self fs0 "index.rst" indexHeader)
      rw [foldl_replay _ _ indexHeader hpre_idx hstubs hindex]
    · rw [hrun fs0, hrun]
      show getFile (List.foldl processNotebook (setFile fs0 "index.rst" indexHeader) pre)
          "index.rst"
        = getFile (List.foldl processNotebook (setFile [] "index.rst" indexHeader) pre)
          "index.rst"
      rw [getFile_foldl_index hpre_idx (getFile_setFile_self fs0 "index.rst" indexHeader),
        getFile_foldl_index hpre_idx (getFile_setFile_self [] "index.rst" indexHeader)]

/-- C8 witness: a run over one notebook starting from a directory with a
stale index and an unrelated file is reproduced exactly by a second run,
and its index agrees with the clean-directory run. -/
theorem c8_idempotent_witness :
    buildRst (fun _ => 0) ["a.ipynb"]
        (buildRst (fun _ => 0) ["a.ipynb"] [("index.rst", "stale"), ("old.rst", "x")]).fs
      = buildRst (fun _ => 0) ["a.ipynb"] [("index.rst", "stale"), ("old.rst", "x")]
    ∧ getFile (buildRst (fun _ => 0) ["a.ipynb"]
        [("index.rst", "stale"), ("old.rst", "x")]).fs "index.rst"
      = getFile (buildRst (fun _ => 0) ["a.ipynb"] []).fs "index.rst" :=
  c8_idempotent (fun _ => 0) ["a.ipynb"] [("index.rst", "stale"), ("old.rst", "x")]
    (by decide)

/-- C6: for every process count nhost ≥ 1, host id below nhost and cell
count N, the gidlist computed by Ring.set_gids on that host is exactly
the ascending list of gids g below N with g mod nhost equal to the id;
consequently the per-host gidlists are pairwise disjoint and together
cover exactly the gids 0..N-1 (a round-robin partition). -/
theorem c6_round_robin_partition (nhost id N : Nat) (hn : 0 < nhost) (hid : id < nhost) :
    set_gids nhost id N = (List.range N).filter (fun g => g % nhost == id)
    ∧ (∀ id2, id2 < nhost → id2 ≠ id →
        ∀ g, g ∈ set_gids nhost id N → g ∉ set_gids nhost id2 N)
    ∧ (∀ g, g < N ↔ ∃ i, i < nhost ∧ g ∈ set_gids nhost i N) := by
  refine ⟨set_gids_eq_filter hn hid, ?_, ?_⟩
  · intro id2 h2 hneq g hg hg2
    have ha := ((mem_set_gids hn hid).1 hg).2
    have hb := ((mem_set_gids hn h2).1 hg2).2
    exact hneq (by omega)
  · intro g
    constructor
    · intro hg
      exact ⟨g % nhost, Nat.mod_lt g hn,
        (mem_set_gids hn (Nat.mod_lt g hn)).2 ⟨hg, rfl⟩⟩
    · rintro ⟨i, hi, hgi⟩
      exact ((mem_set_gids hn hi).1 hgi).1

/-- C6 witness: two hosts, five cells. -/
theorem c6_round_robin_partition_witness :
    set_gids 2 1 5 = (List.range 5).filter (fun g => g % 2 == 1)
    ∧ (∀ id2, id2 < 2 → id2 ≠ 1 → ∀ g, g ∈ set_gids 2 1 5 → g ∉ set_gids 2 id2 5)
    ∧ (∀ g, g < 5 ↔ ∃ i, i < 2 ∧ g ∈ set_gids 2 i 5) :=
  c6_round_robin_partition 2 1 5 (by decide) (by decide)

/-- C7: each process local dictionary maps exactly its own gids to the
spike lists it recorded; the rank-0 merge of the alltoall-gathered
dictionaries never overwrites an existing key (it equals the plain
concatenation of the per-rank dictionaries in rank order), its key set
is exactly 0..N-1, and every gid maps to the list recorded by the
process owning that gid. -/
theorem c7_gather_merge {α : Type} (recorded : Nat → Nat → α) (nhost N : Nat)
    (hn : 0 < nhost) :
    (∀ id, id < nhost →
      (local_data recorded nhost id N).map Prod.fst = set_gids nhost id N
      ∧ ∀ g ∈ set_gids nhost id N,
          assocGet (local_data recorded nhost id N) g = some (recorded id g))
    ∧ gatherMerge recorded nhost N
        = ((List.range nhost).map (fun id => local_data recorded nhost id N)).flatten
    ∧ (∀ g, g ∈ (gatherMerge recorded nhost N).map Prod.fst ↔ g < N)
    ∧ (∀ g, g < N → assocGet (gatherMerge recorded nhost N) g
        = some (recorded (g % nhost) g)) := by
  refine ⟨?_, gatherMerge_eq_flatten recorded hn,
    fun g => gatherMerge_mem_keys recorded hn g,
    fun g hg => gatherMerge_get recorded hn hg⟩
  intro id hid
  refine ⟨local_data_keys recorded nhost id N, ?_⟩
  intro g hg
  apply assocGet_of_mem_nodup
  · rw [local_data_keys]
    exact nodup_set_gids nhost id N hn
  · rw [local_data]
    exact List.mem_map.2 ⟨g, hg, rfl⟩

/-- C7 witness: two ranks, five cells, with the recorded data tagged by
owning rank so the merged values are visibly the owner recordings. -/
theorem c7_gather_merge_witness :
    (∀ id, id < 2 →
      (local_data (fun id g => (id, g)) 2 id 5).map Prod.fst = set_gids 2 id 5
      ∧ ∀ g ∈ set_gids 2 id 5,
          assocGet (local_data (fun id g => (id, g)) 2 id 5) g = some (id, g))
    ∧ gatherMerge (fun id g => (id, g)) 2 5
        = ((List.range 2).map (fun id => local_data (fun id g => (id, g)) 2 id 5)).flatten
    ∧ (∀ g, g ∈ (gatherMerge (fun id g => (id, g)) 2 5).map Prod.fst ↔ g < 5)
    ∧ (∀ g, g < 5 → assocGet (gatherMerge (fun id g => (id, g)) 2 5) g
        = some (g % 2, g)) :=
  c7_gather_merge (fun id g => (id, g)) 2 5 (by decide)

/-- C10: over all processes, Ring._connect_cells connects each owned cell
with gid g to source gid (g - 1 + N) mod N, so the network is a single
directed ring: cell n projects to cell (n+1) mod N (in particular cell
N-1 to cell 0), and every cell has exactly one incoming ring connection,
carrying weight syn_w and delay syn_delay. -/
theorem c10_ring_topology {α : Type} (nhost N : Nat) (hn : 0 < nhost) (hN : 0 < N)
    (syn_w syn_delay : α) :
    (∀ n, n < N → Connection.mk n ((n + 1) % N) syn_w syn_delay
        ∈ allConnections nhost N syn_w syn_delay)
    ∧ (∀ c ∈ allConnections nhost N syn_w syn_delay,
        c.target < N ∧ c.source = (c.target + N - 1) % N
        ∧ c.weight = syn_w ∧ c.delay = syn_delay)
    ∧ (∀ g, g < N →
        (allConnections nhost N syn_w syn_delay).countP (fun c => c.target == g) = 1) := by
  have hcount : ∀ g, ∀ i, i < nhost →
      List.countP (fun c => c.target == g) (connect_cells nhost i N syn_w syn_delay)
        = if g < N ∧ g % nhost = i then 1 else 0 := by
    intro g i hi
    rw [connect_cells, List.countP_map]
    have hfun : ((fun c => c.target == g)
        ∘ fun gid => Connection.mk (ringSource N gid) gid syn_w syn_delay)
        = fun gid => gid == g := rfl
    rw [hfun, ← List.count_eq_countP]
    exact count_set_gids hn hi
  refine ⟨?_, ?_, ?_⟩
  · intro n hn'
    have ht : (n + 1) % N < N := Nat.mod_lt _ hN
    rw [allConnections, List.mem_flatMap]
    refine ⟨((n + 1) % N) % nhost, List.mem_range.2 (Nat.mod_lt _ hn), ?_⟩
    rw [connect_cells]
    apply List.mem_map.2
    refine ⟨(n + 1) % N, (mem_set_gids hn (Nat.mod_lt _ hn)).2 ⟨ht, rfl⟩, ?_⟩
    rw [ringSource_eq _ hN, succ_mod_source hn']
  · intro c hc
    rw [allConnections, List.mem_flatMap] at hc
    obtain ⟨id, hid, hc⟩ := hc
    rw [connect_cells] at hc
    obtain ⟨gid, hgid, rfl⟩ := List.mem_map.1 hc
    have hlt : gid < N := ((mem_set_gids hn (List.mem_range.1 hid)).1 hgid).1
    exact ⟨hlt, ringSource_eq gid hN, rfl, rfl⟩
  · intro g hg
    rw [allConnections, List.countP_flatMap]
    apply sum_map_single 1 _ (Nat.mod_lt g hn)
    · intro i hi hne
      show List.countP (fun c => c.target == g) (connect_cells nhost i N syn_w syn_delay) = 0
      rw [hcount g i hi, if_neg (fun hc => hne hc.2.symm)]
    · show List.countP (fun c => c.target == g)
        (connect_cells nhost (g % nhost) N syn_w syn_delay) = 1
      rw [hcount g (g % nhost) (Nat.mod_lt g hn), if_pos ⟨hg, rfl⟩]

/-- C10 witness: two hosts, a five-cell ring with concrete weight 7 and
delay 9. -/
theorem c10_ring_topology_witness :
    (∀ n, n < 5 → Connection.mk n ((n + 1) % 5) 7 9 ∈ allConnections 2 5 7 9)
    ∧ (∀ c ∈ allConnections 2 5 (7 : Nat) (9 : Nat),
        c.target < 5 ∧ c.source = (c.target + 5 - 1) % 5 ∧ c.weight = 7 ∧ c.delay = 9)
    ∧ (∀ g, g < 5 → (allConnections 2 5 (7 : Nat) (9 : Nat)).countP
        (fun c => c.target == g) = 1) :=
  c10_ring_topology 2 5 (by decide) (by decide) 7 9

end PyTut
